import Mathlib

/-!
Shallow embedding of `src/tokenize_all.py` (repository `tokenize_all_code`).

The Python module defines three things the claims are about:

* `TokenIdentifier` — a category name, an anchored regular expression, and a
  capture-group index;
* `TokenizableLanguage.__init__` — merges the fixed default identifier list
  with a caller-supplied override list through an insertion-ordered dictionary
  keyed by category, then reverses the dictionary's value list;
* `TokenizableLanguage.tokenize` — strips carriage returns, then repeatedly
  tries `self.identifiers + default_identifiers` on the remaining text,
  consuming `len(match.group(identifier.group))` characters per emitted token,
  raising `Exception("Unrecognized Token: " + code)` when nothing matches.

Regular expressions are embedded as executable matching functions on
`List Char`.  Each default pattern of the source is translated to a function
returning `some (fullMatch, groupValue)` exactly when Python's `re.match`
succeeds on the remaining text (ASCII character classes; the source's
patterns only use ASCII-relevant classes on the inputs of interest).
The Python `while` loop is embedded with explicit fuel: `none` models a
non-terminating run, `some` a run that finished with a token list or with
the exception message.
-/

namespace TokenizeAll

/-- ASCII embedding of the regex class `\w` (`[a-zA-Z0-9_]`). -/
def isWordChar (c : Char) : Bool := c.isAlpha || c.isDigit || c = '_'

/-- ASCII embedding of the regex class `\s` used by the `function` pattern. -/
def isPySpace (c : Char) : Bool :=
  c = ' ' || c = '\t' || c = '\n' || c = '\r' || c = '\x0b' || c = '\x0c'

/-- The punctuation class of the default `symbol` pattern
`^(=|\+|\-|\*|<|>|/|%|&|\||!|\.|\:)+`. -/
def symbolChars : List Char :=
  ['=', '+', '-', '*', '<', '>', '/', '%', '&', '|', '!', '.', ':']

/-- Embedding of `TokenIdentifier`: a category name plus the matching
behaviour of its (anchored) regular expression on the remaining text.
`mtch s = some (full, value)` means the pattern matches a prefix of `s`
with whole match `full` (group 0) and `value = match.group(self.group)`. -/
structure TokenIdentifier where
  type : String
  mtch : List Char → Option (List Char × List Char)

/-- Embedding of `Token`.  `full_match` keeps the matched text of group 0
(the Python object stores the `re.Match`; its observable text is group 0). -/
structure Token where
  type : String
  value : List Char
  full_match : List Char
  start : Nat
  line_number : Nat
  line_start : Nat
deriving DecidableEq, Repr

/-- Pattern `^[a-z_]\w*\b` (the trailing `\b` always holds after the maximal
`\w*` run, whose first character is a word character). -/
def matchIdentifier (s : List Char) : Option (List Char × List Char) :=
  match s with
  | [] => none
  | c :: rest =>
    if c.isLower || c = '_' then
      let w := c :: rest.takeWhile isWordChar
      some (w, w)
    else none

/-- Pattern matching one fixed character (`^\(`, `^\)`, `^\{`, `^\}`, `^;`,
`^\[`, `^\]`, `^,`). -/
def matchSingle (c : Char) (s : List Char) : Option (List Char × List Char) :=
  match s with
  | [] => none
  | c' :: _ => if c' = c then some ([c], [c]) else none

/-- Pattern `^\n+`: the maximal nonempty run of newline characters. -/
def matchNewline (s : List Char) : Option (List Char × List Char) :=
  let run := s.takeWhile (fun c => c = '\n')
  if run = [] then none else some (run, run)

/-- The `\d+(\.\d+)?` part of the number pattern: the maximal nonempty
digit run, extended by `.` plus a further nonempty digit run if present. -/
def numTail (t : List Char) : Option (List Char) :=
  let d1 := t.takeWhile Char.isDigit
  if d1 = [] then none
  else
    match t.drop d1.length with
    | '.' :: t3 =>
      let d2 := t3.takeWhile Char.isDigit
      if d2 = [] then some d1 else some (d1 ++ '.' :: d2)
    | _ => some d1

/-- Pattern `^-?\d+(\.\d+)?` with group 0 as the value: an optional leading
minus sign followed by `numTail` (a leading minus not followed by a digit
fails, as the regex does after exhausting its one backtracking option). -/
def matchNumber (s : List Char) : Option (List Char × List Char) :=
  match s with
  | '-' :: t => (numTail t).map (fun w => ('-' :: w, '-' :: w))
  | _ => (numTail s).map (fun w => (w, w))

/-- Pattern `^(=|\+|\-|\*|<|>|/|%|&|\||!|\.|\:)+` with group **1** as the
value: group 1 holds the last repetition of the group, i.e. the last
character of the maximal symbol run. -/
def matchSymbol (s : List Char) : Option (List Char × List Char) :=
  let run := s.takeWhile (fun c => c ∈ symbolChars)
  match run.getLast? with
  | some c => some (run, [c])
  | none => none

/-- Pattern `^"([^"]|\\")*"`.  Backtracking order makes the `[^"]` branch
absorb every non-quote character (including backslashes), so the match is
the opening quote, the run of non-quote characters, and the first closing
quote; there is no match without a closing quote. -/
def matchDQString (s : List Char) : Option (List Char × List Char) :=
  match s with
  | '"' :: rest =>
    match rest.drop (rest.takeWhile (fun c => c ≠ '"')).length with
    | '"' :: _ =>
      some ('"' :: rest.takeWhile (fun c => c ≠ '"') ++ ['"'],
        '"' :: rest.takeWhile (fun c => c ≠ '"') ++ ['"'])
    | _ => none
  | _ => none

/-- Pattern `^[A-Z_]+\b`: the maximal nonempty `[A-Z_]` run, failing when a
word character follows it (no split point can restore the boundary). -/
def matchConstant (s : List Char) : Option (List Char × List Char) :=
  let run := s.takeWhile (fun c => c.isUpper || c = '_')
  if run = [] then none
  else
    match s.drop run.length with
    | [] => some (run, run)
    | c :: _ => if isWordChar c then none else some (run, run)

/-- Pattern `^[A-Z](\w)*\b` with group 0 as the value. -/
def matchClassName (s : List Char) : Option (List Char × List Char) :=
  match s with
  | [] => none
  | c :: rest =>
    if c.isUpper then
      let w := c :: rest.takeWhile isWordChar
      some (w, w)
    else none

/-- Pattern `^([A-Za-z_]\w*)\s*\(` with group **1** (the identifier) as the
value; the whitespace run and the `(` belong only to the full match. -/
def matchFunction (s : List Char) : Option (List Char × List Char) :=
  match s with
  | [] => none
  | c :: rest =>
    if c.isAlpha || c = '_' then
      let ident := c :: rest.takeWhile isWordChar
      let t := s.drop ident.length
      let ws := t.takeWhile isPySpace
      match t.drop ws.length with
      | '(' :: _ => some (ident ++ ws ++ ['('], ident)
      | _ => none
    else none

/-- Pattern `^ +`: the maximal nonempty run of space characters. -/
def matchWhitespace (s : List Char) : Option (List Char × List Char) :=
  let run := s.takeWhile (fun c => c = ' ')
  if run = [] then none else some (run, run)

/-- Pattern `^//[^\n]*`. -/
def matchComment (s : List Char) : Option (List Char × List Char) :=
  match s with
  | '/' :: '/' :: rest =>
    let body := rest.takeWhile (fun c => c ≠ '\n')
    some ('/' :: '/' :: body, '/' :: '/' :: body)
  | _ => none

/-! The eighteen entries of `TokenizableLanguage.default_identifiers`, in
source order.  The `comma` entry's pattern `","` is anchored to `"^,"` by
`TokenIdentifier.__init__`, so it too matches only at the start. -/

def dIdentifier : TokenIdentifier := ⟨"identifier", matchIdentifier⟩
def dLeftParen : TokenIdentifier := ⟨"left parentheses", matchSingle '('⟩
def dRightParen : TokenIdentifier := ⟨"right parentheses", matchSingle ')'⟩
def dLeftBrace : TokenIdentifier := ⟨"left brace", matchSingle '\x7b'⟩
def dRightBrace : TokenIdentifier := ⟨"right brace", matchSingle '\x7d'⟩
def dSemicolon : TokenIdentifier := ⟨"semicolon", matchSingle ';'⟩
def dLeftBracket : TokenIdentifier := ⟨"left bracket", matchSingle '['⟩
def dRightBracket : TokenIdentifier := ⟨"right bracket", matchSingle ']'⟩
def dNewline : TokenIdentifier := ⟨"newline", matchNewline⟩
def dNumber : TokenIdentifier := ⟨"number", matchNumber⟩
def dSymbol : TokenIdentifier := ⟨"symbol", matchSymbol⟩
def dDQString : TokenIdentifier := ⟨"string", matchDQString⟩
def dConstant : TokenIdentifier := ⟨"constant", matchConstant⟩
def dClassName : TokenIdentifier := ⟨"class name", matchClassName⟩
def dFunction : TokenIdentifier := ⟨"function", matchFunction⟩
def dWhitespace : TokenIdentifier := ⟨"whitespace", matchWhitespace⟩
def dComment : TokenIdentifier := ⟨"comment", matchComment⟩
def dComma : TokenIdentifier := ⟨"comma", matchSingle ','⟩

/-- `TokenizableLanguage.default_identifiers`, in source order. -/
def default_identifiers : List TokenIdentifier :=
  [dIdentifier, dLeftParen, dRightParen, dLeftBrace, dRightBrace, dSemicolon,
   dLeftBracket, dRightBracket, dNewline, dNumber, dSymbol, dDQString,
   dConstant, dClassName, dFunction, dWhitespace, dComment, dComma]

/-- One Python dictionary assignment `d[k] = v` on an insertion-ordered
dictionary represented as an association list: an existing key keeps its
position and gets the new value, a new key is appended. -/
def dinsert (d : List (String × TokenIdentifier)) (k : String)
    (v : TokenIdentifier) : List (String × TokenIdentifier) :=
  if k ∈ d.map (fun p => p.1) then
    d.map (fun p => if p.1 = k then (k, v) else p)
  else d ++ [(k, v)]

/-- Folding a rule list into the dictionary, as both `for` loops of
`TokenizableLanguage.__init__` do. -/
def buildDict (d : List (String × TokenIdentifier))
    (ids : List TokenIdentifier) : List (String × TokenIdentifier) :=
  ids.foldl (fun d i => dinsert d i.type i) d

/-- `TokenizableLanguage.__init__`: insert the defaults, then the overrides,
take the dictionary's values, and reverse them.  This is `self.identifiers`
of the constructed language. -/
def resolvedIdentifiers (overrides : List TokenIdentifier) :
    List TokenIdentifier :=
  ((buildDict (buildDict [] default_identifiers) overrides).map
    (fun p => p.2)).reverse

/-- The list `self.identifiers + TokenizableLanguage.default_identifiers`
walked by each iteration of `tokenize`. -/
def searchIdentifiers (overrides : List TokenIdentifier) :
    List TokenIdentifier :=
  resolvedIdentifiers overrides ++ default_identifiers

/-- The inner `for identifier in ...` loop: the first identifier whose
pattern matches the remaining text, with its match. -/
def firstMatch : List TokenIdentifier → List Char →
    Option (TokenIdentifier × List Char × List Char)
  | [], _ => none
  | id :: rest, code =>
    match id.mtch code with
    | some (full, value) => some (id, full, value)
    | none => firstMatch rest code

/-- The `while(code)` loop of `tokenize`, with explicit fuel.  `none` models
a run that does not terminate within the fuel; `some (Except.ok toks)`
a completed scan; `some (Except.error msg)` the raised exception. -/
def runTokenize (ids : List TokenIdentifier) :
    Nat → List Char → Nat → Nat → Nat → List Token →
    Option (Except String (List Token))
  | 0, _, _, _, _, _ => none
  | fuel + 1, code, pos, ln, lp, acc =>
    if code = [] then some (Except.ok acc.reverse)
    else
      match firstMatch ids code with
      | none =>
        some (Except.error ("Unrecognized Token: " ++ String.mk code))
      | some (id, full, value) =>
        runTokenize ids fuel (code.drop value.length) (pos + value.length)
          (if id.type = "newline" then ln + value.length else ln)
          (if id.type = "newline" then 0 else lp + value.length)
          (⟨id.type, value, full, pos, ln, lp⟩ :: acc)

/-- `TokenizableLanguage.tokenize` for the language built from `overrides`:
strip carriage returns, then run the loop.  The fuel `length + 1` is enough
for every run in which each step consumes at least one character; a run
that would loop forever in Python yields `none`. -/
def tokenize (overrides : List TokenIdentifier) (code : String) :
    Option (Except String (List Token)) :=
  let cs := code.data.filter (fun c => c ≠ '\r')
  runTokenize (searchIdentifiers overrides) (cs.length + 1) cs 0 1 0 []

/-- The resolved matching order asserted by the specification (spec §4.2 and
claim C1): override rules first in supplied order with a by-category map in
which the last write for a duplicate key wins, then the non-overridden
default rules in the default set's own order.  This definition follows the
spec's words, to be compared with `resolvedIdentifiers` from the source. -/
def specClaimedResolvedIdentifiers (overrides : List TokenIdentifier) :
    List TokenIdentifier :=
  (buildDict [] overrides).map (fun p => p.2) ++
    default_identifiers.filter
      (fun d => ¬ overrides.any (fun o => o.type = d.type))

/-- The matching order asserted by claim C1 for the scanner's walk: the
spec's resolved list followed by one more full pass over the raw default
rule set. -/
def specClaimedSearchIdentifiers (overrides : List TokenIdentifier) :
    List TokenIdentifier :=
  specClaimedResolvedIdentifiers overrides ++ default_identifiers

/-- Claim C3: tokenizing `"x = 5;"` with a profile built from an empty
override list yields exactly six tokens identifier("x"), whitespace(" "),
symbol("="), whitespace(" "), number("5"), semicolon(";") with start
offsets 0,1,2,3,4,5 and each value of length 1. -/
theorem C3_defaults_x_eq_5 :
    tokenize [] "x = 5;" = some (Except.ok
      [⟨"identifier", ['x'], ['x'], 0, 1, 0⟩,
       ⟨"whitespace", [' '], [' '], 1, 1, 1⟩,
       ⟨"symbol", ['='], ['='], 2, 1, 2⟩,
       ⟨"whitespace", [' '], [' '], 3, 1, 3⟩,
       ⟨"number", ['5'], ['5'], 4, 1, 4⟩,
       ⟨"semicolon", [';'], [';'], 5, 1, 5⟩]) := by rfl

/-- Claim C2 counterexample: the claim asserts that after the "function"
match on `"foo()"` the trailing lookahead character `(` is dropped and
never re-emitted as a separate left-parentheses token.  In the code only
`len(value)` characters are consumed, so the `(` stays in the remaining
text: the scan of `"foo()"` emits a "left parentheses" token at offset 3
right after the "function" token. -/
theorem C2_counterexample :
    ¬ (∀ toks, tokenize [] "foo()" = some (Except.ok toks) →
        ∀ t ∈ toks, t.type ≠ "left parentheses") := by
  intro h
  exact h
    [⟨"function", ['f', 'o', 'o'], ['f', 'o', 'o', '('], 0, 1, 0⟩,
     ⟨"left parentheses", ['('], ['('], 3, 1, 3⟩,
     ⟨"right parentheses", [')'], [')'], 4, 1, 4⟩]
    (by rfl)
    ⟨"left parentheses", ['('], ['('], 3, 1, 3⟩
    (by decide) rfl

/-- Claim C2 amended: when a rule's capture selects a value shorter than the
full match, only the value's length is consumed; the trailing lookahead
characters of the full match remain in the input and are re-scanned.
Tokenizing `"foo()"` with a defaults-only profile yields a first token of
category "function" with value "foo" and full match "foo(" at offset 0,
followed by a left-parentheses token "(" at offset 3 and a
right-parentheses token ")" at offset 4. -/
theorem C2_amended_foo_call :
    tokenize [] "foo()" = some (Except.ok
      [⟨"function", ['f', 'o', 'o'], ['f', 'o', 'o', '('], 0, 1, 0⟩,
       ⟨"left parentheses", ['('], ['('], 3, 1, 3⟩,
       ⟨"right parentheses", [')'], [')'], 4, 1, 4⟩]) := by rfl

/-- Claim C9 counterexample: the claim asserts that concatenating the
emitted values reproduces the input (minus carriage returns).  The default
"symbol" rule extracts group 1 of `(...)+`, the **last** repetition, so on
`"+="` the whole run `+=` is matched but the value is `=`, one character is
consumed, and the concatenation of the values is `==` ≠ `+=`. -/
theorem C9_counterexample :
    tokenize [] "+=" = some (Except.ok
      [⟨"symbol", ['='], ['+', '='], 0, 1, 0⟩,
       ⟨"symbol", ['='], ['='], 1, 1, 1⟩]) ∧
    ['='] ++ ['='] ≠ ("+=".data.filter (fun c => c ≠ '\r')) := by
  exact ⟨by rfl, by decide⟩

/-- Claim C7 counterexample: the claim asserts the error value carries the
offset, line number and column at which scanning stopped.  The code raises
`Exception("Unrecognized Token: " + code)`: scanning `"@"` stops at offset
0 and scanning `"a@"` stops at offset 1, yet both deliver the identical
error value, so the error cannot carry the stop position. -/
theorem C7_counterexample :
    tokenize [] "@" = some (Except.error "Unrecognized Token: @") ∧
    tokenize [] "a@" = some (Except.error "Unrecognized Token: @") := by
  exact ⟨by rfl, by rfl⟩

/-- Claim C1 counterexample: the claim asserts override rules come first in
the resolved matching order.  Overriding the default category "identifier"
keeps it at the dictionary position of the default entry, and the reversal
in `__init__` puts the whole default block in reversed order, so the
resolved walk starts with "comma", not with the overridden "identifier". -/
theorem C1_counterexample :
    (searchIdentifiers [⟨"identifier", matchIdentifier⟩]).map
        (fun i => i.type) ≠
      (specClaimedSearchIdentifiers [⟨"identifier", matchIdentifier⟩]).map
        (fun i => i.type) := by
  decide

/-- An override rule of category "newline" whose pattern (`^;`) consumes a
value containing no newline character, used to separate "length of the
consumed value" from "number of newline characters consumed". -/
def ovSemiNewline : TokenIdentifier :=
  ⟨"newline", fun s =>
    match s with | ';' :: _ => some ([';'], [';']) | _ => none⟩

/-- Claim C4 counterexample: the claim asserts the line number increases by
the number of newline characters consumed.  The code increases it by the
length of the consumed value: with an override "newline" rule matching `;`,
scanning `";a"` consumes the value `";"` (zero newline characters) and the
next token is recorded at line 2, not line 1. -/
theorem C4_counterexample :
    tokenize [ovSemiNewline] ";a" = some (Except.ok
      [⟨"newline", [';'], [';'], 0, 1, 0⟩,
       ⟨"identifier", ['a'], ['a'], 1, 2, 0⟩]) ∧
    [';'].count '\n' = 0 ∧ (2 : Nat) ≠ 1 + [';'].count '\n' := by
  exact ⟨by rfl, by decide, by decide⟩

/-- The last rule of category `k` in a supplied override list, if any. -/
def lastWith : List TokenIdentifier → String → Option TokenIdentifier
  | [], _ => none
  | o :: rest, k =>
    match lastWith rest k with
    | some x => some x
    | none => if o.type = k then some o else none

/-- The dictionary entries contributed by override categories that are not
already keys: first-appearance positions, last write for a duplicate
category wins. -/
def novelAssoc (ks : List String) :
    List TokenIdentifier → List (String × TokenIdentifier)
  | [] => []
  | o :: rest =>
    if o.type ∈ ks then novelAssoc ks rest
    else (o.type, (lastWith rest o.type).getD o) ::
      novelAssoc (ks ++ [o.type]) rest

/-- Closed form of the dictionary fold of `__init__`: folding an override
list into an existing dictionary updates each existing entry to the last
override of its category and appends the novel categories in
first-appearance order. -/
theorem buildDict_characterization (ovs : List TokenIdentifier) :
    ∀ d : List (String × TokenIdentifier),
    buildDict d ovs =
      d.map (fun p => (p.1, (lastWith ovs p.1).getD p.2)) ++
        novelAssoc (d.map (fun p => p.1)) ovs := by
  induction ovs with
  | nil =>
    intro d
    simp [buildDict, lastWith, novelAssoc]
  | cons o rest ih =>
    intro d
    have hstep : buildDict d (o :: rest) = buildDict (dinsert d o.type o) rest := by
      simp [buildDict]
    rw [hstep]
    by_cases h : o.type ∈ d.map (fun p => p.1)
    · rw [dinsert, if_pos h, ih]
      have hkeys : (d.map (fun p => if p.1 = o.type then (o.type, o) else p)).map
            (fun p => p.1) = d.map (fun p => p.1) := by
        rw [List.map_map]
        apply List.map_congr_left
        intro p _
        by_cases hp : p.1 = o.type
        · simp [hp]
        · simp [hp]
      rw [hkeys]
      have hmap : (d.map (fun p => if p.1 = o.type then (o.type, o) else p)).map
            (fun p => (p.1, (lastWith rest p.1).getD p.2)) =
          d.map (fun p => (p.1, (lastWith (o :: rest) p.1).getD p.2)) := by
        rw [List.map_map]
        apply List.map_congr_left
        intro p _
        by_cases hp : p.1 = o.type
        · cases hl : lastWith rest o.type with
          | some x => simp [lastWith, hp, hl]
          | none => simp [lastWith, hp, hl]
        · cases hl : lastWith rest p.1 with
          | some x => simp [lastWith, hp, hl]
          | none => simp [lastWith, hp, hl, Ne.symm hp]
      rw [hmap]
      have hnov : novelAssoc (d.map (fun p => p.1)) (o :: rest) =
          novelAssoc (d.map (fun p => p.1)) rest := by
        simp [novelAssoc, h]
      rw [hnov]
    · rw [dinsert, if_neg h, ih]
      have hmap : (d ++ [(o.type, o)]).map
            (fun p => (p.1, (lastWith rest p.1).getD p.2)) =
          d.map (fun p => (p.1, (lastWith (o :: rest) p.1).getD p.2)) ++
            [(o.type, (lastWith rest o.type).getD o)] := by
        rw [List.map_append]
        congr 1
        · apply List.map_congr_left
          intro p hp
          have hne : p.1 ≠ o.type := by
            intro he
            exact h (he ▸ List.mem_map_of_mem (fun p => p.1) hp)
          cases hl : lastWith rest p.1 with
          | some x => simp [lastWith, hl]
          | none => simp [lastWith, hl, Ne.symm hne]
      have hkeys : (d ++ [(o.type, o)]).map (fun p => p.1) =
          d.map (fun p => p.1) ++ [o.type] := by simp
      have hnov : novelAssoc (d.map (fun p => p.1)) (o :: rest) =
          (o.type, (lastWith rest o.type).getD o) ::
            novelAssoc (d.map (fun p => p.1) ++ [o.type]) rest := by
        simp [novelAssoc, h]
      rw [hmap, hkeys, hnov, List.append_assoc]
      rfl

/-- Folding the default identifiers into the empty dictionary lists them in
source order, keyed by their categories. -/
theorem buildDict_defaults :
    buildDict [] default_identifiers =
      default_identifiers.map (fun d => (d.type, d)) := by rfl

/-- Claim C1 amended: the matching order `tokenize` walks is NOT the
override-first order the claim states.  It is: the novel override
categories and the full default category block — the latter updated
in place so every category carries its last supplied override if any,
else its default rule — **reversed** (novel categories in reverse order of
first appearance first, then the default categories in reverse of the
default set's fixed order), followed by one more full pass over the raw
default rule set. -/
theorem C1_amended_resolved_order (ovs : List TokenIdentifier) :
    searchIdentifiers ovs =
      (default_identifiers.map (fun d => (lastWith ovs d.type).getD d) ++
        (novelAssoc (default_identifiers.map (fun d => d.type)) ovs).map
          (fun p => p.2)).reverse ++ default_identifiers := by
  unfold searchIdentifiers resolvedIdentifiers
  rw [buildDict_defaults, buildDict_characterization, List.map_append,
    List.map_map, List.map_map, List.map_map]
  rfl

/-- Every entry of the dictionary is keyed by its rule's own category. -/
theorem buildDict_fst_eq_type (ovs : List TokenIdentifier) :
    ∀ d : List (String × TokenIdentifier),
    (∀ p ∈ d, p.1 = p.2.type) → ∀ p ∈ buildDict d ovs, p.1 = p.2.type := by
  induction ovs with
  | nil =>
    intro d hd
    simpa [buildDict] using hd
  | cons o rest ih =>
    intro d hd
    have hstep : buildDict d (o :: rest) = buildDict (dinsert d o.type o) rest := by
      simp [buildDict]
    rw [hstep]
    apply ih
    intro p hp
    unfold dinsert at hp
    by_cases h : o.type ∈ d.map (fun p => p.1)
    · rw [if_pos h] at hp
      obtain ⟨q, hq, hqe⟩ := List.mem_map.1 hp
      by_cases hq1 : q.1 = o.type
      · rw [if_pos hq1] at hqe
        rw [← hqe]
      · rw [if_neg hq1] at hqe
        rw [← hqe]
        exact hd q hq
    · rw [if_neg h] at hp
      rcases List.mem_append.1 hp with hp | hp
      · exact hd p hp
      · simp only [List.mem_singleton] at hp
        rw [hp]

/-- The dictionary keys stay distinct through the override fold. -/
theorem buildDict_keys_nodup (ovs : List TokenIdentifier) :
    ∀ d : List (String × TokenIdentifier),
    (d.map (fun p => p.1)).Nodup →
    ((buildDict d ovs).map (fun p => p.1)).Nodup := by
  induction ovs with
  | nil =>
    intro d hd
    simpa [buildDict] using hd
  | cons o rest ih =>
    intro d hd
    have hstep : buildDict d (o :: rest) = buildDict (dinsert d o.type o) rest := by
      simp [buildDict]
    rw [hstep]
    apply ih
    unfold dinsert
    by_cases h : o.type ∈ d.map (fun p => p.1)
    · rw [if_pos h]
      have hkeys : (d.map (fun p => if p.1 = o.type then (o.type, o) else p)).map
            (fun p => p.1) = d.map (fun p => p.1) := by
        rw [List.map_map]
        apply List.map_congr_left
        intro p _
        by_cases hp : p.1 = o.type
        · simp [hp]
        · simp [hp]
      rw [hkeys]
      exact hd
    · rw [if_neg h, List.map_append]
      simp [List.nodup_append, hd, h]

/-- Claim C8: the resolved rule list `self.identifiers` produced by
`TokenizableLanguage.__init__` contains at most one rule per category —
no two of its rules share a category name, for every override list. -/
theorem C8_resolved_categories_nodup (ovs : List TokenIdentifier) :
    ((resolvedIdentifiers ovs).map (fun i => i.type)).Nodup := by
  unfold resolvedIdentifiers
  rw [List.map_reverse, List.map_map, List.nodup_reverse]
  have hbase : ∀ p ∈ buildDict (buildDict [] default_identifiers) ovs,
      p.1 = p.2.type := by
    apply buildDict_fst_eq_type
    rw [buildDict_defaults]
    intro p hp
    obtain ⟨q, _, hqe⟩ := List.mem_map.1 hp
    rw [← hqe]
  have hmap : (buildDict (buildDict [] default_identifiers) ovs).map
        ((fun i => i.type) ∘ (fun p : String × TokenIdentifier => p.2)) =
      (buildDict (buildDict [] default_identifiers) ovs).map
        (fun p => p.1) := by
    apply List.map_congr_left
    intro p hp
    exact (hbase p hp).symm
  rw [hmap]
  apply buildDict_keys_nodup
  rw [buildDict_defaults, List.map_map]
  decide

/-- Scan reachability: from remaining text `c` the loop of `tokenize`
reaches remaining text `r` after zero or more emitted tokens. -/
inductive Reach (ids : List TokenIdentifier) : List Char → List Char → Prop
  | refl (c : List Char) : Reach ids c c
  | step {c r : List Char} {id : TokenIdentifier} {full value : List Char} :
      firstMatch ids c = some (id, full, value) →
      Reach ids (c.drop value.length) r → Reach ids c r

/-- From exhausted input the loop reaches only exhausted input. -/
theorem reach_nil {ids : List TokenIdentifier} {c r : List Char}
    (h : Reach ids c r) : c = [] → r = [] := by
  induction h with
  | refl c => exact fun hc => hc
  | step hm hr ih =>
    intro hc
    subst hc
    exact ih (by simp)

/-- A position whose first match has an empty value is a fixed point of
the loop: every reachable position from it is itself. -/
theorem reach_empty_value {ids : List TokenIdentifier} {c r : List Char}
    {id : TokenIdentifier} {full : List Char}
    (h : Reach ids c r) :
    firstMatch ids c = some (id, full, []) → r = c := by
  induction h with
  | refl c => intro _; rfl
  | step hm hr ih =>
    intro hfix
    rw [hm] at hfix
    simp only [Option.some.injEq, Prod.mk.injEq] at hfix
    obtain ⟨rfl, rfl, rfl⟩ := hfix
    simp only [List.length_nil, List.drop_zero] at ih
    exact ih hm

/-- A run stuck on an empty-valued first match never terminates: the Python
loop would spin forever, the embedding returns `none` for every fuel. -/
theorem runTokenize_empty_value_none {ids : List TokenIdentifier}
    {c : List Char} {id : TokenIdentifier} {full : List Char}
    (hne : c ≠ []) (hm : firstMatch ids c = some (id, full, [])) :
    ∀ (fuel : Nat) (pos ln lp : Nat) (acc : List Token),
    runTokenize ids fuel c pos ln lp acc = none := by
  intro fuel
  induction fuel with
  | zero => intro pos ln lp acc; rfl
  | succ n ih =>
    intro pos ln lp acc
    simp only [runTokenize, hne, if_neg hne, hm]
    exact ih _ _ _ _

/-- With enough fuel, the loop yields the exception value exactly when a
reachable position is nonempty and matched by no rule; the message then
holds the full remaining text at that position. -/
theorem runTokenize_error_iff {ids : List TokenIdentifier} :
    ∀ (fuel : Nat) (code : List Char), code.length < fuel →
    ∀ (pos ln lp : Nat) (acc : List Token) (m : String),
    (runTokenize ids fuel code pos ln lp acc = some (Except.error m) ↔
      ∃ r, Reach ids code r ∧ r ≠ [] ∧ firstMatch ids r = none ∧
        m = "Unrecognized Token: " ++ String.mk r) := by
  intro fuel
  induction fuel with
  | zero => intro code h; omega
  | succ n ih =>
    intro code hlen pos ln lp acc m
    by_cases hc : code = []
    · subst hc
      constructor
      · intro h
        simp [runTokenize] at h
      · rintro ⟨r, hr, hne, -, -⟩
        exact absurd (reach_nil hr rfl) hne
    · cases hm : firstMatch ids code with
      | none =>
        constructor
        · intro h
          simp only [runTokenize, if_neg hc, hm, Option.some.injEq,
            Except.error.injEq] at h
          exact ⟨code, Reach.refl code, hc, hm, h.symm⟩
        · rintro ⟨r, hr, hne, hstuck, hmsg⟩
          have hrc : r = code := by
            cases hr with
            | refl => rfl
            | step hm2 hr2 => rw [hm] at hm2; cases hm2
          subst hrc
          simp only [runTokenize, if_neg hc, hm, Option.some.injEq,
            Except.error.injEq]
          exact hmsg.symm
      | some x =>
        obtain ⟨id, full, value⟩ := x
        by_cases hv : value = []
        · subst hv
          rw [runTokenize_empty_value_none hc hm]
          constructor
          · intro h
            cases h
          · rintro ⟨r, hr, hne, hstuck, -⟩
            have hrc : r = code := reach_empty_value hr hm
            subst hrc
            rw [hm] at hstuck
            cases hstuck
        · have hstep : runTokenize ids (n + 1) code pos ln lp acc =
              runTokenize ids n (code.drop value.length) (pos + value.length)
                (if id.type = "newline" then ln + value.length else ln)
                (if id.type = "newline" then 0 else lp + value.length)
                (⟨id.type, value, full, pos, ln, lp⟩ :: acc) := by
            simp only [runTokenize, if_neg hc, hm]
          have hlt : (code.drop value.length).length < n := by
            rw [List.length_drop]
            have h1 : 1 ≤ value.length := by
              cases value with
              | nil => exact absurd rfl hv
              | cons a t => simp
            have h2 : 1 ≤ code.length := by
              cases code with
              | nil => exact absurd rfl hc
              | cons a t => simp
            omega
          rw [hstep, ih _ hlt]
          constructor
          · rintro ⟨r, hr, hne, hstuck, hmsg⟩
            exact ⟨r, Reach.step hm hr, hne, hstuck, hmsg⟩
          · rintro ⟨r, hr, hne, hstuck, hmsg⟩
            cases hr with
            | refl =>
              rw [hm] at hstuck
              cases hstuck
            | step hm2 hr2 =>
              rw [hm] at hm2
              simp only [Option.some.injEq, Prod.mk.injEq] at hm2
              obtain ⟨-, -, rfl⟩ := hm2
              exact ⟨r, hr2, hne, hstuck, hmsg⟩

/-- The exception outcome and its message do not depend on the position,
line, column, or already-collected tokens the loop was started with. -/
theorem runTokenize_error_indep {ids : List TokenIdentifier} :
    ∀ (fuel : Nat) (code : List Char) (pos ln lp : Nat) (acc : List Token)
      (m : String) (pos2 ln2 lp2 : Nat) (acc2 : List Token),
    runTokenize ids fuel code pos ln lp acc = some (Except.error m) →
    runTokenize ids fuel code pos2 ln2 lp2 acc2 = some (Except.error m) := by
  intro fuel
  induction fuel with
  | zero =>
    intro code pos ln lp acc m pos2 ln2 lp2 acc2 h
    cases h
  | succ n ih =>
    intro code pos ln lp acc m pos2 ln2 lp2 acc2 h
    by_cases hc : code = []
    · subst hc
      simp [runTokenize] at h
    · cases hm : firstMatch ids code with
      | none =>
        simp only [runTokenize, if_neg hc, hm] at h ⊢
        exact h
      | some x =>
        obtain ⟨id, full, value⟩ := x
        simp only [runTokenize, if_neg hc, hm] at h ⊢
        exact ih _ _ _ _ _ _ _ _ _ _ h

/-- When the loop raises, the message names a reachable stuck remainder
(no fuel bound needed: a run that raises has already reached it). -/
theorem runTokenize_error_reach {ids : List TokenIdentifier} :
    ∀ (fuel : Nat) (code : List Char) (pos ln lp : Nat) (acc : List Token)
      (m : String),
    runTokenize ids fuel code pos ln lp acc = some (Except.error m) →
    ∃ r, Reach ids code r ∧ r ≠ [] ∧ firstMatch ids r = none ∧
      m = "Unrecognized Token: " ++ String.mk r := by
  intro fuel
  induction fuel with
  | zero =>
    intro code pos ln lp acc m h
    cases h
  | succ n ih =>
    intro code pos ln lp acc m h
    by_cases hc : code = []
    · subst hc
      simp [runTokenize] at h
    · cases hm : firstMatch ids code with
      | none =>
        simp only [runTokenize, if_neg hc, hm, Option.some.injEq,
          Except.error.injEq] at h
        exact ⟨code, Reach.refl code, hc, hm, h.symm⟩
      | some x =>
        obtain ⟨id, full, value⟩ := x
        simp only [runTokenize, if_neg hc, hm] at h
        obtain ⟨r, hr, hne, hstuck, hmsg⟩ := ih _ _ _ _ _ _ h
        exact ⟨r, Reach.step hm hr, hne, hstuck, hmsg⟩

/-- Claim C6: for every profile and input, `tokenize` fails exactly when
some reachable scan position has nonempty remaining text matched by no rule
of the resolved search list; the failure reports the whole unrecognized
remaining text, consumes none of it, and no partial token list is returned
(the outcome is a complete token sequence or this single error value). -/
theorem C6_error_iff (ovs : List TokenIdentifier) (code : String) (m : String) :
    tokenize ovs code = some (Except.error m) ↔
      ∃ r, Reach (searchIdentifiers ovs)
          (code.data.filter (fun c => c ≠ '\r')) r ∧ r ≠ [] ∧
        firstMatch (searchIdentifiers ovs) r = none ∧
        m = "Unrecognized Token: " ++ String.mk r := by
  unfold tokenize
  exact runTokenize_error_iff _ _ (by omega) 0 1 0 [] m

/-- Claim C7 amended: the error value delivered on failure carries the
unconsumed remainder in full, but not the offset, line number, or column:
the same error value is produced no matter which position, line, column, or
collected-token state the scan loop carries when it gets stuck. -/
theorem C7_amended_error_content (ovs : List TokenIdentifier)
    (code m : String) (h : tokenize ovs code = some (Except.error m)) :
    (∃ r, Reach (searchIdentifiers ovs)
        (code.data.filter (fun c => c ≠ '\r')) r ∧ r ≠ [] ∧
      firstMatch (searchIdentifiers ovs) r = none ∧
      m = "Unrecognized Token: " ++ String.mk r) ∧
    ∀ (pos2 ln2 lp2 : Nat) (acc2 : List Token),
      runTokenize (searchIdentifiers ovs)
        ((code.data.filter (fun c => c ≠ '\r')).length + 1)
        (code.data.filter (fun c => c ≠ '\r')) pos2 ln2 lp2 acc2 =
        some (Except.error m) := by
  unfold tokenize at h
  constructor
  · exact runTokenize_error_reach _ _ _ _ _ _ _ h
  · intro pos2 ln2 lp2 acc2
    exact runTokenize_error_indep _ _ _ _ _ _ _ _ _ _ _ h

/-- Claim C7 amended, witnessed at the defaults-only profile on `"@"`:
scanning stops immediately, the error message carries the remainder `@`,
and the error value is independent of the loop's counters. -/
theorem C7_amended_witness :
    tokenize [] "@" = some (Except.error "Unrecognized Token: @") ∧
    ((∃ r, Reach (searchIdentifiers [])
        ("@".data.filter (fun c => c ≠ '\r')) r ∧ r ≠ [] ∧
      firstMatch (searchIdentifiers []) r = none ∧
      "Unrecognized Token: @" = "Unrecognized Token: " ++ String.mk r) ∧
    ∀ (pos2 ln2 lp2 : Nat) (acc2 : List Token),
      runTokenize (searchIdentifiers [])
        (("@".data.filter (fun c => c ≠ '\r')).length + 1)
        ("@".data.filter (fun c => c ≠ '\r')) pos2 ln2 lp2 acc2 =
        some (Except.error "Unrecognized Token: @")) :=
  ⟨by rfl, C7_amended_error_content [] "@" "Unrecognized Token: @" (by rfl)⟩

/-- The counter-update contract for an emitted token stream, stated from
the amended bookkeeping rule: each token records the running line number
and column; after a token of category "newline" the line number grows by
the length of the consumed value and the column resets to 0, otherwise the
column grows by the length of the consumed value. -/
def lineColSpec : Nat → Nat → List Token → Prop
  | _, _, [] => True
  | ln, lp, t :: ts =>
    t.line_number = ln ∧ t.line_start = lp ∧
    lineColSpec (if t.type = "newline" then ln + t.value.length else ln)
      (if t.type = "newline" then 0 else lp + t.value.length) ts

/-- The loop threads its counters exactly as `lineColSpec` prescribes for
the tokens it appends. -/
theorem runTokenize_lineCol {ids : List TokenIdentifier} :
    ∀ (fuel : Nat) (code : List Char) (pos ln lp : Nat) (acc toks : List Token),
    runTokenize ids fuel code pos ln lp acc = some (Except.ok toks) →
    ∃ rest, toks = acc.reverse ++ rest ∧ lineColSpec ln lp rest := by
  intro fuel
  induction fuel with
  | zero =>
    intro code pos ln lp acc toks h
    cases h
  | succ n ih =>
    intro code pos ln lp acc toks h
    by_cases hc : code = []
    · subst hc
      simp [runTokenize] at h
      exact ⟨[], by simp [← h], trivial⟩
    · cases hm : firstMatch ids code with
      | none =>
        simp only [runTokenize, if_neg hc, hm] at h
        cases h
      | some x =>
        obtain ⟨id, full, value⟩ := x
        simp only [runTokenize, if_neg hc, hm] at h
        obtain ⟨rest, he, hs⟩ := ih _ _ _ _ _ _ h
        refine ⟨⟨id.type, value, full, pos, ln, lp⟩ :: rest, ?_, ?_⟩
        · rw [he]
          simp
        · exact ⟨rfl, rfl, hs⟩

/-- Claim C4 amended: after each emitted token the scanner updates its
counters by the **length of the consumed value**: a "newline" token adds
that length to the line number (for the default newline rule this equals
the number of newline characters consumed) and resets the column to 0, any
other token adds it to the column; the counters start at line 1, column 0. -/
theorem C4_amended_lineCol (ovs : List TokenIdentifier) (code : String)
    (toks : List Token) (h : tokenize ovs code = some (Except.ok toks)) :
    lineColSpec 1 0 toks := by
  unfold tokenize at h
  obtain ⟨rest, he, hs⟩ := runTokenize_lineCol _ _ _ _ _ _ _ h
  simpa [he] using hs

/-- Claim C4 amended, witnessed on `"a\nb"` with the defaults-only profile:
identifier "a" at line 1 column 0, a newline token, then identifier "b" at
line 2 column 0. -/
theorem C4_amended_witness :
    tokenize [] "a\nb" = some (Except.ok
      [⟨"identifier", ['a'], ['a'], 0, 1, 0⟩,
       ⟨"newline", ['\n'], ['\n'], 1, 1, 1⟩,
       ⟨"identifier", ['b'], ['b'], 2, 2, 0⟩]) ∧
    lineColSpec 1 0
      [⟨"identifier", ['a'], ['a'], 0, 1, 0⟩,
       ⟨"newline", ['\n'], ['\n'], 1, 1, 1⟩,
       ⟨"identifier", ['b'], ['b'], 2, 2, 0⟩] :=
  ⟨by rfl, C4_amended_lineCol [] "a\nb" _ (by rfl)⟩

/-- The inner loop returns a rule of the searched list together with that
rule's own match on the remaining text. -/
theorem firstMatch_mem :
    ∀ (ids : List TokenIdentifier) (code : List Char)
      (id : TokenIdentifier) (full value : List Char),
    firstMatch ids code = some (id, full, value) →
    id ∈ ids ∧ id.mtch code = some (full, value) := by
  intro ids
  induction ids with
  | nil =>
    intro code id full value h
    cases h
  | cons i rest ih =>
    intro code id full value h
    cases hm : i.mtch code with
    | some x =>
      obtain ⟨f, v⟩ := x
      simp only [firstMatch, hm, Option.some.injEq, Prod.mk.injEq] at h
      obtain ⟨rfl, rfl, rfl⟩ := h
      exact ⟨List.mem_cons_self i rest, hm⟩
    | none =>
      simp only [firstMatch, hm] at h
      obtain ⟨hmem, hmt⟩ := ih code id full value h
      exact ⟨List.mem_cons_of_mem i hmem, hmt⟩

/-- Offset contiguity of a token stream: the first token starts at the
given position and every further token starts where the previous token's
value ended. -/
def contiguousFrom : Nat → List Token → Prop
  | _, [] => True
  | p, t :: ts => t.start = p ∧ contiguousFrom (p + t.value.length) ts

/-- For rule lists whose match values never exceed the remaining text (true
of every regex-derived rule), a completed loop run appends a contiguous
token block whose value lengths sum to the length of the scanned text. -/
theorem runTokenize_lengths {ids : List TokenIdentifier}
    (hids : ∀ id ∈ ids, ∀ (s f v : List Char),
      id.mtch s = some (f, v) → v.length ≤ s.length) :
    ∀ (fuel : Nat) (code : List Char) (pos ln lp : Nat) (acc toks : List Token),
    runTokenize ids fuel code pos ln lp acc = some (Except.ok toks) →
    ∃ rest, toks = acc.reverse ++ rest ∧ contiguousFrom pos rest ∧
      (rest.map (fun t => t.value.length)).sum = code.length := by
  intro fuel
  induction fuel with
  | zero =>
    intro code pos ln lp acc toks h
    cases h
  | succ n ih =>
    intro code pos ln lp acc toks h
    by_cases hc : code = []
    · subst hc
      simp [runTokenize] at h
      exact ⟨[], by simp [← h], trivial, by simp⟩
    · cases hm : firstMatch ids code with
      | none =>
        simp only [runTokenize, if_neg hc, hm] at h
        cases h
      | some x =>
        obtain ⟨id, full, value⟩ := x
        simp only [runTokenize, if_neg hc, hm] at h
        obtain ⟨rest, he, hcont, hsum⟩ := ih _ _ _ _ _ _ h
        refine ⟨⟨id.type, value, full, pos, ln, lp⟩ :: rest, ?_, ⟨rfl, hcont⟩, ?_⟩
        · rw [he]
          simp
        · obtain ⟨hmem, hmt⟩ := firstMatch_mem ids code id full value hm
          have hle : value.length ≤ code.length := hids id hmem code full value hmt
          simp only [List.map_cons, List.sum_cons, hsum, List.length_drop]
          omega

/-- Claim C9 amended: for every profile whose rules' extracted values never
exceed the remaining text (every regex-derived rule does this) and every
input on which `tokenize` succeeds, the token stream is contiguous by value
length — the first start is 0 and each subsequent start is the previous
start plus the previous value's length — and the value lengths sum to the
length of the input with carriage returns removed.  (Concatenating the
values need not reproduce that input, because a capture group's value need
not be a prefix of the text it consumes.) -/
theorem C9_amended_contiguous (ovs : List TokenIdentifier)
    (hids : ∀ id ∈ searchIdentifiers ovs, ∀ (s f v : List Char),
      id.mtch s = some (f, v) → v.length ≤ s.length)
    (code : String) (toks : List Token)
    (h : tokenize ovs code = some (Except.ok toks)) :
    contiguousFrom 0 toks ∧
    (toks.map (fun t => t.value.length)).sum =
      (code.data.filter (fun c => c ≠ '\r')).length := by
  unfold tokenize at h
  obtain ⟨rest, he, hcont, hsum⟩ := runTokenize_lengths hids _ _ _ _ _ _ _ h
  simp only [List.reverse_nil, List.nil_append] at he
  subst he
  exact ⟨hcont, hsum⟩

/-- Length of a `takeWhile` prefix is bounded by the list's length. -/
theorem takeWhile_len_le (p : Char → Bool) (l : List Char) :
    (l.takeWhile p).length ≤ l.length :=
  (List.takeWhile_sublist p).length_le

/-- The value extracted by the default identifier pattern is nonempty and
no longer than the scanned text. -/
theorem matchIdentifier_spec {s f v : List Char}
    (h : matchIdentifier s = some (f, v)) : v ≠ [] ∧ v.length ≤ s.length := by
  cases s with
  | nil => cases h
  | cons c rest =>
    simp only [matchIdentifier] at h
    split at h
    · simp only [Option.some.injEq, Prod.mk.injEq] at h
      obtain ⟨-, rfl⟩ := h
      refine ⟨by simp, ?_⟩
      have := takeWhile_len_le isWordChar rest
      simp only [List.length_cons]
      omega
    · cases h

/-- The value extracted by a single-character pattern is that character. -/
theorem matchSingle_spec {c : Char} {s f v : List Char}
    (h : matchSingle c s = some (f, v)) : v ≠ [] ∧ v.length ≤ s.length := by
  cases s with
  | nil => cases h
  | cons a rest =>
    simp only [matchSingle] at h
    split at h
    · simp only [Option.some.injEq, Prod.mk.injEq] at h
      obtain ⟨-, rfl⟩ := h
      exact ⟨by simp, by simp⟩
    · cases h

/-- The value extracted by the newline pattern is the nonempty newline
run. -/
theorem matchNewline_spec {s f v : List Char}
    (h : matchNewline s = some (f, v)) : v ≠ [] ∧ v.length ≤ s.length := by
  simp only [matchNewline] at h
  split at h
  · cases h
  · simp only [Option.some.injEq, Prod.mk.injEq] at h
    obtain ⟨-, rfl⟩ := h
    next hne => exact ⟨hne, takeWhile_len_le _ s⟩

/-- The value produced by `numTail` is nonempty and no longer than its
input. -/
theorem numTail_spec {t w : List Char} (h : numTail t = some w) :
    w ≠ [] ∧ w.length ≤ t.length := by
  simp only [numTail] at h
  split at h
  · cases h
  · next hd1 =>
    have hle : (t.takeWhile Char.isDigit).length ≤ t.length :=
      takeWhile_len_le _ t
    split at h
    · next t3 hdrop =>
      have hlen : (t.drop (t.takeWhile Char.isDigit).length).length =
          t.length - (t.takeWhile Char.isDigit).length :=
        List.length_drop _ _
      rw [hdrop] at hlen
      have hle3 : (t3.takeWhile Char.isDigit).length ≤ t3.length :=
        takeWhile_len_le _ t3
      split at h
      · simp only [Option.some.injEq] at h
        subst h
        exact ⟨hd1, hle⟩
      · simp only [Option.some.injEq] at h
        subst h
        refine ⟨by simp [hd1], ?_⟩
        simp only [List.length_append, List.length_cons] at hlen ⊢
        omega
    · simp only [Option.some.injEq] at h
      subst h
      exact ⟨hd1, hle⟩

/-- The value extracted by the number pattern is nonempty and no longer
than the scanned text. -/
theorem matchNumber_spec {s f v : List Char}
    (h : matchNumber s = some (f, v)) : v ≠ [] ∧ v.length ≤ s.length := by
  simp only [matchNumber] at h
  split at h
  · next t =>
    cases hw : numTail t with
    | none => rw [hw] at h; cases h
    | some w =>
      rw [hw] at h
      simp only [Option.map_some', Option.some.injEq, Prod.mk.injEq] at h
      obtain ⟨-, rfl⟩ := h
      obtain ⟨hne, hle⟩ := numTail_spec hw
      exact ⟨by simp, by simp only [List.length_cons]; omega⟩
  · cases hw : numTail s with
    | none => rw [hw] at h; cases h
    | some w =>
      rw [hw] at h
      simp only [Option.map_some', Option.some.injEq, Prod.mk.injEq] at h
      obtain ⟨-, rfl⟩ := h
      exact numTail_spec hw

/-- The value extracted by the symbol pattern is the last character of the
nonempty symbol run. -/
theorem matchSymbol_spec {s f v : List Char}
    (h : matchSymbol s = some (f, v)) : v ≠ [] ∧ v.length ≤ s.length := by
  simp only [matchSymbol] at h
  split at h
  · next c hg =>
    simp only [Option.some.injEq, Prod.mk.injEq] at h
    obtain ⟨-, rfl⟩ := h
    have hrun : s.takeWhile (fun c => decide (c ∈ symbolChars)) ≠ [] := by
      intro he
      rw [he] at hg
      cases hg
    have h1 : 1 ≤ (s.takeWhile (fun c => decide (c ∈ symbolChars))).length :=
      List.length_pos.mpr hrun
    have h2 := takeWhile_len_le (fun c => decide (c ∈ symbolChars)) s
    exact ⟨by simp, by simp only [List.length_singleton]; omega⟩
  · cases h

/-- The value extracted by the string pattern is the quoted run including
both quotes. -/
theorem matchDQString_spec {s f v : List Char}
    (h : matchDQString s = some (f, v)) : v ≠ [] ∧ v.length ≤ s.length := by
  unfold matchDQString at h
  split at h
  · next rest =>
    split at h
    · next tail hdrop =>
      simp only [Option.some.injEq, Prod.mk.injEq] at h
      obtain ⟨-, rfl⟩ := h
      have hlen : (rest.drop ((rest.takeWhile (fun c => decide (c ≠ '"'))).length)).length =
          rest.length - (rest.takeWhile (fun c => decide (c ≠ '"'))).length :=
        List.length_drop _ _
      rw [hdrop] at hlen
      have hle := takeWhile_len_le (fun c => decide (c ≠ '"')) rest
      refine ⟨by simp, ?_⟩
      simp only [List.length_cons, List.length_append, List.length_singleton,
        List.length_nil] at hlen ⊢
      omega
    · cases h
  · cases h

/-- The value extracted by the constant pattern is the nonempty
upper-case run. -/
theorem matchConstant_spec {s f v : List Char}
    (h : matchConstant s = some (f, v)) : v ≠ [] ∧ v.length ≤ s.length := by
  simp only [matchConstant] at h
  split at h
  · cases h
  · next hne =>
    have hle := takeWhile_len_le (fun c => c.isUpper || decide (c = '_')) s
    split at h
    · simp only [Option.some.injEq, Prod.mk.injEq] at h
      obtain ⟨-, rfl⟩ := h
      exact ⟨hne, hle⟩
    · split at h
      · cases h
      · simp only [Option.some.injEq, Prod.mk.injEq] at h
        obtain ⟨-, rfl⟩ := h
        exact ⟨hne, hle⟩

/-- The value extracted by the class-name pattern is nonempty and no longer
than the scanned text. -/
theorem matchClassName_spec {s f v : List Char}
    (h : matchClassName s = some (f, v)) : v ≠ [] ∧ v.length ≤ s.length := by
  cases s with
  | nil => cases h
  | cons c rest =>
    simp only [matchClassName] at h
    split at h
    · simp only [Option.some.injEq, Prod.mk.injEq] at h
      obtain ⟨-, rfl⟩ := h
      refine ⟨by simp, ?_⟩
      have := takeWhile_len_le isWordChar rest
      simp only [List.length_cons]
      omega
    · cases h

/-- The value extracted by the function pattern is the nonempty identifier
part of the match. -/
theorem matchFunction_spec {s f v : List Char}
    (h : matchFunction s = some (f, v)) : v ≠ [] ∧ v.length ≤ s.length := by
  cases s with
  | nil => cases h
  | cons c rest =>
    simp only [matchFunction] at h
    split at h
    · split at h
      · simp only [Option.some.injEq, Prod.mk.injEq] at h
        obtain ⟨-, rfl⟩ := h
        refine ⟨by simp, ?_⟩
        have := takeWhile_len_le isWordChar rest
        simp only [List.length_cons]
        omega
      · cases h
    · cases h

/-- The value extracted by the whitespace pattern is the nonempty space
run. -/
theorem matchWhitespace_spec {s f v : List Char}
    (h : matchWhitespace s = some (f, v)) : v ≠ [] ∧ v.length ≤ s.length := by
  simp only [matchWhitespace] at h
  split at h
  · cases h
  · simp only [Option.some.injEq, Prod.mk.injEq] at h
    obtain ⟨-, rfl⟩ := h
    next hne => exact ⟨hne, takeWhile_len_le _ s⟩

/-- The value extracted by the comment pattern starts with `//`. -/
theorem matchComment_spec {s f v : List Char}
    (h : matchComment s = some (f, v)) : v ≠ [] ∧ v.length ≤ s.length := by
  unfold matchComment at h
  split at h
  · next rest =>
    simp only [Option.some.injEq, Prod.mk.injEq] at h
    obtain ⟨-, rfl⟩ := h
    refine ⟨by simp, ?_⟩
    have := takeWhile_len_le (fun c => decide (c ≠ '\n')) rest
    simp only [List.length_cons]
    omega
  · cases h

/-- Every default rule extracts a nonempty value no longer than the
remaining text. -/
theorem default_mtch_spec :
    ∀ id ∈ default_identifiers, ∀ (s f v : List Char),
    id.mtch s = some (f, v) → v ≠ [] ∧ v.length ≤ s.length := by
  intro id hid s f v h
  simp only [default_identifiers, List.mem_cons, List.not_mem_nil,
    or_false] at hid
  rcases hid with rfl | rfl | rfl | rfl | rfl | rfl | rfl | rfl | rfl | rfl |
    rfl | rfl | rfl | rfl | rfl | rfl | rfl | rfl
  · exact matchIdentifier_spec h
  · exact matchSingle_spec h
  · exact matchSingle_spec h
  · exact matchSingle_spec h
  · exact matchSingle_spec h
  · exact matchSingle_spec h
  · exact matchSingle_spec h
  · exact matchSingle_spec h
  · exact matchNewline_spec h
  · exact matchNumber_spec h
  · exact matchSymbol_spec h
  · exact matchDQString_spec h
  · exact matchConstant_spec h
  · exact matchClassName_spec h
  · exact matchFunction_spec h
  · exact matchWhitespace_spec h
  · exact matchComment_spec h
  · exact matchSingle_spec h

/-- Every rule of the defaults-only search list extracts a nonempty value
no longer than the remaining text. -/
theorem searchNil_mtch_spec :
    ∀ id ∈ searchIdentifiers [], ∀ (s f v : List Char),
    id.mtch s = some (f, v) → v ≠ [] ∧ v.length ≤ s.length := by
  intro id hid
  have hs : searchIdentifiers [] =
      default_identifiers.reverse ++ default_identifiers := by rfl
  rw [hs, List.mem_append, List.mem_reverse] at hid
  rcases hid with hid | hid
  · exact default_mtch_spec id hid
  · exact default_mtch_spec id hid

/-- Claim C9 amended, witnessed at the defaults-only profile on `"x;"`:
the length hypothesis holds for every default rule, and the two emitted
tokens are contiguous with value lengths summing to the input length. -/
theorem C9_amended_witness :
    (∀ id ∈ searchIdentifiers [], ∀ (s f v : List Char),
      id.mtch s = some (f, v) → v.length ≤ s.length) ∧
    (contiguousFrom 0
      [⟨"identifier", ['x'], ['x'], 0, 1, 0⟩,
       ⟨"semicolon", [';'], [';'], 1, 1, 1⟩] ∧
    ([⟨"identifier", ['x'], ['x'], 0, 1, 0⟩,
      ⟨"semicolon", [';'], [';'], 1, 1, 1⟩].map
        (fun t : Token => t.value.length)).sum =
      ("x;".data.filter (fun c => c ≠ '\r')).length) :=
  ⟨fun id hid s f v h => (searchNil_mtch_spec id hid s f v h).2,
   C9_amended_contiguous []
     (fun id hid s f v h => (searchNil_mtch_spec id hid s f v h).2)
     "x;" _ (by rfl)⟩

/-- For rule lists whose rules only extract nonempty values, fuel exceeding
the text length suffices: every iteration consumes at least one character
or raises. -/
theorem runTokenize_total {ids : List TokenIdentifier}
    (hids : ∀ id ∈ ids, ∀ (s f v : List Char),
      id.mtch s = some (f, v) → v ≠ []) :
    ∀ (fuel : Nat) (code : List Char), code.length < fuel →
    ∀ (pos ln lp : Nat) (acc : List Token),
    (runTokenize ids fuel code pos ln lp acc).isSome := by
  intro fuel
  induction fuel with
  | zero => intro code h; omega
  | succ n ih =>
    intro code hlen pos ln lp acc
    by_cases hc : code = []
    · subst hc
      simp [runTokenize]
    · cases hm : firstMatch ids code with
      | none => simp [runTokenize, hc, hm]
      | some x =>
        obtain ⟨id, full, value⟩ := x
        simp only [runTokenize, if_neg hc, hm]
        apply ih
        obtain ⟨hmem, hmt⟩ := firstMatch_mem ids code id full value hm
        have hne := hids id hmem code full value hmt
        have h1 : 1 ≤ value.length := List.length_pos.mpr hne
        have h2 : 1 ≤ code.length := List.length_pos.mpr hc
        rw [List.length_drop]
        omega

/-- Claim C10: for every profile all of whose searched rules only extract
nonempty values, `tokenize` terminates on every input (every iteration
consumes at least one character or raises) — in particular for the profile
built from an empty override list; and a profile containing a rule that
matches the empty string at the current position breaks the precondition:
with such a rule first in the search order the loop never terminates on any
nonempty input (the embedding returns `none` for every fuel). -/
theorem C10_termination :
    (∀ (ovs : List TokenIdentifier),
      (∀ id ∈ searchIdentifiers ovs, ∀ (s f v : List Char),
        id.mtch s = some (f, v) → v ≠ []) →
      ∀ (code : String), (tokenize ovs code).isSome) ∧
    (∀ (code : String), (tokenize [] code).isSome) ∧
    (∀ (code : List Char), code ≠ [] →
      ∀ (fuel pos ln lp : Nat) (acc : List Token),
        runTokenize (searchIdentifiers [⟨"empty", fun _ => some ([], [])⟩])
          fuel code pos ln lp acc = none) := by
  have hA : ∀ (ovs : List TokenIdentifier),
      (∀ id ∈ searchIdentifiers ovs, ∀ (s f v : List Char),
        id.mtch s = some (f, v) → v ≠ []) →
      ∀ (code : String), (tokenize ovs code).isSome := by
    intro ovs hids code
    unfold tokenize
    exact runTokenize_total hids _ _ (by omega) 0 1 0 []
  refine ⟨hA, ?_, ?_⟩
  · intro code
    exact hA [] (fun id hid s f v h => (searchNil_mtch_spec id hid s f v h).1)
      code
  · intro code hc fuel pos ln lp acc
    have hsearch : searchIdentifiers [⟨"empty", fun _ => some ([], [])⟩] =
        (⟨"empty", fun _ => some ([], [])⟩ : TokenIdentifier) ::
          (default_identifiers.reverse ++ default_identifiers) := by rfl
    have hm : firstMatch
        (searchIdentifiers [⟨"empty", fun _ => some ([], [])⟩]) code =
        some (⟨"empty", fun _ => some ([], [])⟩, [], []) := by
      rw [hsearch]
      simp [firstMatch]
    exact runTokenize_empty_value_none hc hm fuel pos ln lp acc

/-- Claim C10, witnessed at the defaults-only profile on `"foo()"`: every
default rule's value is nonempty, and the scan terminates. -/
theorem C10_termination_witness :
    (∀ id ∈ searchIdentifiers [], ∀ (s f v : List Char),
      id.mtch s = some (f, v) → v ≠ []) ∧
    (tokenize [] "foo()").isSome :=
  ⟨fun id hid s f v h => (searchNil_mtch_spec id hid s f v h).1,
   C10_termination.1 []
     (fun id hid s f v h => (searchNil_mtch_spec id hid s f v h).1) "foo()"⟩

/-- Search order of a profile whose single override has category
"comment": the override sits at the (reversed) position of the default
comment rule — second, right after the comma rule — and ahead of every
rule that could also match comment text. -/
theorem searchIdentifiers_comment_override (x : TokenIdentifier)
    (hx : x.type = "comment") :
    searchIdentifiers [x] =
      dComma :: x :: dWhitespace :: dFunction :: dClassName :: dConstant ::
        dDQString :: dSymbol :: dNumber :: dNewline :: dRightBracket ::
        dLeftBracket :: dSemicolon :: dRightBrace :: dLeftBrace ::
        dRightParen :: dLeftParen :: dIdentifier :: default_identifiers := by
  have h0 : searchIdentifiers [x] =
      ((dinsert (buildDict [] default_identifiers) x.type x).map
        (fun p => p.2)).reverse ++ default_identifiers := rfl
  rw [h0, hx]
  rfl

/-- Claim C5: for a profile constructed with an override rule of category
"comment", on any text whose start matches both the override's pattern and
the default comment pattern the scanner selects the override: the first
match is the override's, and the emitted token carries the override's
extracted value and full match. -/
theorem C5_override_comment (o : TokenIdentifier) (hty : o.type = "comment")
    (code f v f2 v2 : List Char)
    (ho : o.mtch code = some (f, v))
    (hd : matchComment code = some (f2, v2)) :
    firstMatch (searchIdentifiers [o]) code = some (o, f, v) ∧
    ∀ (fuel pos ln lp : Nat) (acc : List Token),
      runTokenize (searchIdentifiers [o]) (fuel + 1) code pos ln lp acc =
        runTokenize (searchIdentifiers [o]) fuel (code.drop v.length)
          (pos + v.length) ln (lp + v.length)
          (⟨"comment", v, f, pos, ln, lp⟩ :: acc) := by
  obtain ⟨rest, hcode⟩ : ∃ rest, code = '/' :: '/' :: rest := by
    unfold matchComment at hd
    split at hd
    · next r => exact ⟨r, rfl⟩
    · cases hd
  have hfm : firstMatch (searchIdentifiers [o]) code = some (o, f, v) := by
    rw [searchIdentifiers_comment_override o hty, hcode]
    rw [hcode] at ho
    simp [firstMatch, dComma, matchSingle, ho]
  refine ⟨hfm, ?_⟩
  intro fuel pos ln lp acc
  have hne : code ≠ [] := by
    rw [hcode]
    simp
  simp only [runTokenize, if_neg hne, hfm, hty]
  simp

/-- An override comment rule matching the same `//...` text as the default
comment rule but extracting only the text after the `//` marker. -/
def ovComment : TokenIdentifier :=
  ⟨"comment", fun s =>
    match s with
    | '/' :: '/' :: rest =>
      some ('/' :: '/' :: rest.takeWhile (fun c => c ≠ '\n'),
        rest.takeWhile (fun c => c ≠ '\n'))
    | _ => none⟩

/-- Claim C5, witnessed on `"//ab"`, which matches both the override
`ovComment` and the default comment rule: the scanner picks `ovComment`
and the token value is the override's extraction "ab", not the default
rule's "//ab". -/
theorem C5_override_comment_witness :
    ovComment.type = "comment" ∧
    ovComment.mtch "//ab".data =
      some ("//ab".data, ['a', 'b']) ∧
    matchComment "//ab".data = some ("//ab".data, "//ab".data) ∧
    firstMatch (searchIdentifiers [ovComment]) "//ab".data =
      some (ovComment, "//ab".data, ['a', 'b']) :=
  ⟨rfl, by rfl, by rfl,
    (C5_override_comment ovComment rfl "//ab".data "//ab".data ['a', 'b']
      "//ab".data "//ab".data (by rfl) (by rfl)).1⟩

end TokenizeAll
